import Mathlib

/-!
Shallow embedding of `IniFile.h` (class `IniFile`): an in-memory INI store
backed by a `std::unordered_multimap` from section elements to per-section
key/value maps, with `load`, `save`, typed reads, writes and introspection.

Modelling conventions:
* C++ `std::string` is modelled as `String` (byte strings; all characters the
  claims exercise are ASCII).
* The `std::unordered_multimap` is modelled as a list of records in iteration
  order.  The container guarantees that records with equal keys (equal section
  names; `element::operator==` compares `_name` only) are adjacent in iteration
  order.  We determinize the remaining freedom as: a record with a fresh name
  is appended at the end, a record whose name is already present is inserted
  at the end of its name group.  The per-section `std::unordered_map` is
  modelled as a list of entries in insertion order; keys are unique by name.
* Fallible operations return `Except`/`Option`; `Option.none` marks the one
  place where the C++ dereferences a past-the-end iterator.
-/

/-- Modelled from the spec: the section-handle value type `IniSection`
(declared in `IniSection.h`, which is not under `src/`).  Per spec §3 its
observable fields are the section name, the 0-based occurrence index among
same-named sections (`getIndex()`), and the source line number
(`getLineNum()`); converting an `IniSection` to a string yields its name. -/
structure IniSection where
  name : String
  index : Nat
  lineNum : Nat
deriving DecidableEq

/-- `IniFile::element`: a section or key name tagged with the source line it
came from.  `element::operator==` compares `_name` only, and `elementHash`
hashes `_name` only, so all map lookups are by name. -/
structure element where
  name : String
  lineNum : Nat
deriving DecidableEq

/-- The mapped type of `_data`: one section's key/value map,
`std::unordered_map<element, std::string, elementHash>`. -/
abbrev KeyMap := List (element × String)

/-- One record of `_data`: the section element together with its key map. -/
abbrev SectionRec := element × KeyMap

/-- `_data`, in iteration order (records with equal names adjacent). -/
abbrev Store := List SectionRec

/-- `line.find_first_of(c)`: index of the first occurrence of `c`,
`none` for `npos`. -/
def firstIdxOf (c : Char) (cs : List Char) : Option Nat :=
  cs.findIdx? (fun x => x == c)

/-- `line.find_last_of(c)`: index of the last occurrence of `c`,
`none` for `npos`. -/
def lastIdxOf (c : Char) (cs : List Char) : Option Nat :=
  match firstIdxOf c cs.reverse with
  | none => none
  | some i => some (cs.length - 1 - i)

/-- `IniFile::readWord`: intended to trim leading and trailing spaces.  The
code computes `startPos` (count of leading spaces) and `endPos` (index one
past the last non-space character) and then returns
`line.substr(startPos, endPos)`.  Note that `substr`'s second argument is a
COUNT, not an end position, and is clamped to the remaining length — this is
modelled exactly by `(cs.drop startPos).take endPos`. -/
def readWord (line : String) : String :=
  let cs := line.toList
  if cs.isEmpty then "" else
  let startPos := (cs.takeWhile (fun c => c == ' ')).length
  let endPos := cs.length - (cs.reverse.takeWhile (fun c => c == ' ')).length
  String.mk ((cs.drop startPos).take endPos)

/-- The section-header test in `IniFile::load`: the line contains both
a `[` and a `]` (`find_first_of` on each is not `npos`). -/
def isHeaderLine (line : String) : Bool :=
  (firstIdxOf '[' line.toList).isSome && (firstIdxOf ']' line.toList).isSome

/-- The section name extracted by `IniFile::load`:
`line.substr(leftBracketPos + 1, line.find_last_of(']') - line.find_first_of('[') - 1)`.
When the last `]` lies before the first `[`, the count argument wraps around
in `size_t` and `substr` clamps it to the end of the line; the `else` branch
models that. -/
def sectionNameOf (cs : List Char) : String :=
  match firstIdxOf '[' cs, lastIdxOf ']' cs with
  | some lb, some rb =>
      if lb < rb then String.mk ((cs.drop (lb + 1)).take (rb - lb - 1))
      else String.mk (cs.drop (lb + 1))
  | _, _ => ""

/-- Number of records of `_data` whose element compares equal to `n`
(`std::distance` over `equal_range`). -/
def groupCount (s : Store) (n : String) : Nat :=
  (s.filter (fun r => r.1.name == n)).length

/-- Iteration-order position of the first record whose name is `n`
(`equal_range(...).first`); equals `s.length` when no record matches. -/
def groupStart (s : Store) (n : String) : Nat :=
  s.findIdx (fun r => r.1.name == n)

/-- Position at which `_data.insert` places a record named `n`: at the end of
the existing name group, or at the end of the store for a fresh name
(adjacency of equal keys is the container's guarantee; the exact spot inside
the group is our determinization). -/
def insertPos (s : Store) (n : String) : Nat :=
  groupStart s n + groupCount s n

/-- `it->second.find(key)` on a key map: lookup by name
(`element::operator==` ignores `_lineNum`). -/
def mapFind (m : KeyMap) (k : String) : Option (element × String) :=
  m.find? (fun kv => kv.1.name == k)

/-- The record a valid iterator position designates (the default is never
reached on positions produced by the functions below). -/
def recAt (s : Store) (p : Nat) : SectionRec :=
  s.getD p (⟨"", 0⟩, [])

/-- Reasons `IniFile::load` throws (`std::runtime_error` messages
"empty key or value in line: …", "key and value without section in line: …",
"duplicate key in line: …"). -/
inductive LoadErrKind where
  | emptyField
  | orphanKey
  | duplicateKey
deriving DecidableEq

/-- A load failure: its kind and the reported 1-based line number. -/
structure LoadErr where
  kind : LoadErrKind
  lineNum : Nat
deriving DecidableEq

/-- `readWord(line.substr(0, equalPos))`: the key token of a key/value
line whose first `=` sits at `eqPos`. -/
def kvKeyOf (line : String) (eqPos : Nat) : String :=
  readWord (String.mk (line.toList.take eqPos))

/-- `readWord(line.substr(equalPos + 1))`: the value token. -/
def kvValOf (line : String) (eqPos : Nat) : String :=
  readWord (String.mk (line.toList.drop (eqPos + 1)))

/-- One iteration of the `while (getline(file, line))` loop in
`IniFile::load`, acting on the store and the current-section iterator
(modelled as the iteration-order position of the current section). -/
def processLine (s : Store) (cur : Option Nat) (ln : Nat) (line : String) :
    Except LoadErr (Store × Option Nat) :=
  if isHeaderLine line then
    let p := insertPos s (sectionNameOf line.toList)
    Except.ok (s.take p ++ (⟨sectionNameOf line.toList, ln⟩, []) :: s.drop p, some p)
  else
    match firstIdxOf '=' line.toList with
    | some eqPos =>
        let key := kvKeyOf line eqPos
        let value := kvValOf line eqPos
        if key == "" || value == "" then Except.error ⟨LoadErrKind.emptyField, ln⟩
        else match cur with
          | none => Except.error ⟨LoadErrKind.orphanKey, ln⟩
          | some p =>
            let r := recAt s p
            if (mapFind r.2 key).isSome then Except.error ⟨LoadErrKind.duplicateKey, ln⟩
            else Except.ok (s.set p (r.1, r.2 ++ [(⟨key, ln⟩, value)]), some p)
    | none => Except.ok (s, cur)

/-- The loop of `IniFile::load` over the remaining lines, threading the
1-based line counter, the store and the current-section iterator. -/
def loadAux : List String → Nat → Store → Option Nat → Except LoadErr Store
  | [], _, s, _ => Except.ok s
  | l :: ls, ln, s, cur =>
      match processLine s cur ln l with
      | Except.error e => Except.error e
      | Except.ok (s', cur') => loadAux ls (ln + 1) s' cur'

/-- `IniFile::load` on the sequence of lines of the backing file, starting
from an empty `_data` with `sectionIt = _data.end()` and `lineNum = 1`
(opening the file itself is outside the embedding). -/
def load (L : List String) : Except LoadErr Store :=
  loadAux L 1 [] none

/-- Sort key used by both comparators in `IniFile::save`
(`a.first._lineNum < b.first._lineNum`), for key entries. -/
def kvKey (kv : element × String) : Nat := kv.1.lineNum

/-- Sort key for section records in `IniFile::save`. -/
def secKey (r : SectionRec) : Nat := r.1.lineNum

/-- Insert `x` into `l` after every element whose key is strictly smaller
(the comparator of `std::sort` in `IniFile::save`). -/
def insortK (key : α → Nat) (x : α) : List α → List α
  | [] => [x]
  | y :: ys => if key y < key x then y :: insortK key x ys else x :: y :: ys

/-- Deterministic (stable) model of the two `std::sort` calls in
`IniFile::save`, both of which compare `_lineNum` with `<`. -/
def sortK (key : α → Nat) : List α → List α
  | [] => []
  | x :: xs => insortK key x (sortK key xs)

/-- The sorted array `arr` built by `IniFile::save`: every section's key
entries sorted by `_lineNum`, then the sections sorted by `_lineNum`. -/
def saveArr (s : Store) : List SectionRec :=
  sortK secKey (s.map (fun r => (r.1, sortK kvKey r.2)))

/-- The lines `IniFile::save` emits for one sorted section record:
`[name]`, then `key = value` per entry, then one blank line. -/
def renderBlock (r : SectionRec) : List String :=
  ("[" ++ r.1.name ++ "]") :: r.2.map (fun kv => kv.1.name ++ " = " ++ kv.2) ++ [""]

/-- `IniFile::save`: the full sequence of lines written to the file. -/
def save (s : Store) : List String :=
  ((saveArr s).map renderBlock).flatten

/-- `IniFile::getIterator`: resolve a handle to an iteration-order position.
`equal_range` yields `(end, end)` for an absent name (first disjunct of the
guard); otherwise the guard rejects only `getIndex() >= distance + 1`, and
`std::advance` moves `getIndex()` steps from the start of the name group.
Landing on `_data.end()` (position `s.length`) is `none`; note that
`getIndex() = groupCount` passes the guard and lands one past the group. -/
def getIterator (s : Store) (h : IniSection) : Option Nat :=
  if groupCount s h.name = 0 then none
  else if groupCount s h.name + 1 ≤ h.index then none
  else if groupStart s h.name + h.index < s.length then
    some (groupStart s h.name + h.index)
  else none

/-- `IniFile::sectionExists`. -/
def sectionExists (s : Store) (h : IniSection) : Bool :=
  (getIterator s h).isSome

/-- `IniFile::keyExists`. -/
def keyExists (s : Store) (h : IniSection) (k : String) : Bool :=
  match getIterator s h with
  | none => false
  | some p => (mapFind (recAt s p).2 k).isSome

/-- `IniFile::getKeyLineNum`: returns `0` when the handle does not resolve;
otherwise it dereferences `it->second.find(key)` WITHOUT checking for the
past-the-end iterator, so an absent key is undefined behaviour — modelled as
`none`. -/
def getKeyLineNum (s : Store) (h : IniSection) (k : String) : Option Nat :=
  match getIterator s h with
  | none => some 0
  | some p => (mapFind (recAt s p).2 k).map (fun kv => kv.1.lineNum)

/-- `it->second[key]` read access (`std::unordered_map::operator[]`): yields
the mapped value; an absent key would default-insert an empty value with
`_lineNum = 0`.  The updated map is returned alongside the value. -/
def mapBracket (m : KeyMap) (k : String) : String × KeyMap :=
  match mapFind m k with
  | some kv => (kv.2, m)
  | none => ("", m ++ [(⟨k, 0⟩, "")])

/-- `it->second[key] = v` (`operator[]` then assignment): overwrite the
mapped value of an existing entry in place (the stored `element`, hence its
`_lineNum`, is kept), or insert a fresh entry with `_lineNum = 0`. -/
def mapBracketSet (m : KeyMap) (k v : String) : KeyMap :=
  if (mapFind m k).isSome then
    m.map (fun kv => if kv.1.name == k then (kv.1, v) else kv)
  else m ++ [(⟨k, 0⟩, v)]

/-- `IniFile::read<std::string>`: the supplied default when the handle does
not resolve or the key is absent, otherwise `it->second[key]`.  The second
component is the store after the call (reads go through `operator[]`). -/
def readString (s : Store) (h : IniSection) (k : String) (dflt : String) :
    String × Store :=
  match getIterator s h with
  | none => (dflt, s)
  | some p =>
      let r := recAt s p
      if (mapFind r.2 k).isNone then (dflt, s)
      else
        let vm := mapBracket r.2 k
        (vm.1, s.set p (r.1, vm.2))

/-- `std::tolower` in the default locale, on the ASCII range. -/
def asciiToLower (c : Char) : Char :=
  if 'A' ≤ c ∧ c ≤ 'Z' then Char.ofNat (c.toNat + 32) else c

/-- The `std::transform(..., ::tolower)` over a value string. -/
def lowerStr (s : String) : String :=
  String.mk (s.toList.map asciiToLower)

/-- `alias::trueValue`. -/
def trueAliases : List String := ["true", "on", "yes", "1"]

/-- `IniFile::read<bool>`: default on unresolved handle or absent key;
otherwise `true` exactly when the lowercased stored value is found in
`alias::trueValue`, and `false` for every other stored text. -/
def readBool (s : Store) (h : IniSection) (k : String) (dflt : Bool) :
    Bool × Store :=
  match getIterator s h with
  | none => (dflt, s)
  | some p =>
      let r := recAt s p
      if (mapFind r.2 k).isNone then (dflt, s)
      else
        let vm := mapBracket r.2 k
        (trueAliases.contains (lowerStr vm.1), s.set p (r.1, vm.2))

/-- `std::isspace` in the default locale (the characters `operator>>` skips). -/
def isStreamSpace (c : Char) : Bool :=
  c == ' ' || c == '\t' || c == '\n' || c == '\x0b' || c == '\x0c' || c == '\r'

/-- Value of a digit string. -/
def digitsVal (ds : List Char) : Nat :=
  ds.foldl (fun a c => a * 10 + (c.toNat - '0'.toNat)) 0

/-- `std::istringstream >> var` for an `int` target: skip whitespace, parse
an optional sign and a digit run; since C++11 a failed extraction stores `0`.
(The clamping of out-of-range values to `INT_MAX`/`INT_MIN` is not modelled;
no claim exercises it.) -/
def extractInt (str : String) : Int :=
  let cs := str.toList.dropWhile isStreamSpace
  let sr : Int × List Char :=
    match cs with
    | '-' :: t => (-1, t)
    | '+' :: t => (1, t)
    | _ => (1, cs)
  let ds := sr.2.takeWhile (fun c => c.isDigit)
  if ds.isEmpty then 0 else sr.1 * (digitsVal ds : Int)

/-- The generic `IniFile::read<T>` at `T = int`: default on unresolved handle
or absent key; otherwise stream extraction from `it->second[key]` into `var`
(the supplied default is not consulted on this path). -/
def readInt (s : Store) (h : IniSection) (k : String) (dflt : Int) :
    Int × Store :=
  match getIterator s h with
  | none => (dflt, s)
  | some p =>
      let r := recAt s p
      if (mapFind r.2 k).isNone then (dflt, s)
      else
        let vm := mapBracket r.2 k
        (extractInt vm.1, s.set p (r.1, vm.2))

/-- `IniFile::writeSection`: always inserts a new record (`element` built
from the name with `_lineNum = 0`) and returns a handle whose index is
`getIteratorIndex`, the distance from the start of the name group. -/
def writeSection (s : Store) (n : String) : Store × IniSection :=
  let p := insertPos s n
  let s' := s.take p ++ (⟨n, 0⟩, []) :: s.drop p
  (s', ⟨n, p - groupStart s' n, 0⟩)

/-- `IniFile::writeKeyValue<std::string>`: silent no-op when the handle does
not resolve, otherwise `it->second[key] = value`. -/
def writeKeyValueStr (s : Store) (h : IniSection) (k v : String) : Store :=
  match getIterator s h with
  | none => s
  | some p =>
      let r := recAt s p
      s.set p (r.1, mapBracketSet r.2 k v)

/-- The generic `IniFile::writeKeyValue<T>` at `T = int`:
`it->second[key] = std::to_string(value)`. -/
def writeKeyValueInt (s : Store) (h : IniSection) (k : String) (v : Int) : Store :=
  writeKeyValueStr s h k (toString v)

/-- `IniFile::writeKeyValue<bool>`: stores `alias::computerTruePrint` /
`alias::computerFalsePrint`. -/
def writeKeyValueBool (s : Store) (h : IniSection) (k : String) (v : Bool) : Store :=
  writeKeyValueStr s h k (if v then "true" else "false")

/-! ### The content of an input line sequence, in file order

`canonAux` collects, in file order, the sections a line sequence carries,
with their key/value pairs in file order — using exactly the tokenizer of
`IniFile::load` (`isHeaderLine`, `sectionNameOf`, `readWord`).  It is the
reference point for the round-trip claim: when `load` accepts the lines,
its store holds precisely these records (in container order). -/

/-- File-order content collector: `done` are the finished sections, `cur`
the section currently open. -/
def canonAux : List String → Nat → List SectionRec → Option SectionRec → List SectionRec
  | [], _, done, cur => done ++ cur.toList
  | l :: ls, ln, done, cur =>
      if isHeaderLine l then
        canonAux ls (ln + 1) (done ++ cur.toList) (some (⟨sectionNameOf l.toList, ln⟩, []))
      else
        match firstIdxOf '=' l.toList with
        | some eqPos =>
            match cur with
            | none => canonAux ls (ln + 1) done none
            | some r =>
                canonAux ls (ln + 1) done
                  (some (r.1, r.2 ++ [(⟨kvKeyOf l eqPos, ln⟩, kvValOf l eqPos)]))
        | none => canonAux ls (ln + 1) done cur

/-- The sections/keys/values of a line sequence, in file order. -/
def canonRecs (L : List String) : List SectionRec :=
  canonAux L 1 [] none

/-- The file-order content rendered in save format: `[name]`, one
`key = value` line per key, one blank line per section. -/
def canonRender (L : List String) : List String :=
  ((canonRecs L).map renderBlock).flatten

/-! ### Declarative description of the loader's failure conditions -/

/-- The `i`-th input line (0-based), for stating per-line conditions. -/
def lineAt (L : List String) (i : Nat) : String := L.getD i ""

/-- A key/value line: not a section header, contains `=`. -/
def isKVLine (l : String) : Bool :=
  !isHeaderLine l && (firstIdxOf '=' l.toList).isSome

/-- The key token of line `i` (first-`=` split, `readWord` applied). -/
def keyAt (L : List String) (i : Nat) : String :=
  match firstIdxOf '=' (lineAt L i).toList with
  | some e => kvKeyOf (lineAt L i) e
  | none => ""

/-- The value token of line `i`. -/
def valueAt (L : List String) (i : Nat) : String :=
  match firstIdxOf '=' (lineAt L i).toList with
  | some e => kvValOf (lineAt L i) e
  | none => ""

/-- Index of the last section-header line strictly before position `i`. -/
def lastHeaderIdx (L : List String) : Nat → Option Nat
  | 0 => none
  | i + 1 => if isHeaderLine (lineAt L i) then some i else lastHeaderIdx L i

/-- The key/value line positions before `i` that belong to the same section
block as position `i` (same most recent header). -/
def kvIdxs (L : List String) (i : Nat) : List Nat :=
  (List.range i).filter
    (fun j => isKVLine (lineAt L j) && (lastHeaderIdx L j == lastHeaderIdx L i))

/-- The key records the current section holds when the loader reaches
position `i` (assuming no earlier line failed). -/
def currentKeys (L : List String) (i : Nat) : KeyMap :=
  (kvIdxs L i).map (fun j => (⟨keyAt L j, j + 1⟩, valueAt L j))

/-- Position `i` makes the loader fail: it is a key/value line whose trimmed
key or value is empty, or that precedes every section header, or that
repeats a key of an earlier key/value line in the same section block. -/
def offends (L : List String) (i : Nat) : Prop :=
  i < L.length ∧ isKVLine (lineAt L i) = true ∧
    (keyAt L i = "" ∨ valueAt L i = "" ∨ lastHeaderIdx L i = none ∨
      ∃ j, j < i ∧ isKVLine (lineAt L j) = true ∧
        lastHeaderIdx L j = lastHeaderIdx L i ∧ keyAt L j = keyAt L i)

/-! ### Properties of the sort used by `save` -/

theorem insortK_perm (key : α → Nat) (x : α) (l : List α) :
    (insortK key x l).Perm (x :: l) := by
  induction l with
  | nil => exact List.Perm.refl _
  | cons y ys ih =>
      unfold insortK
      by_cases h : key y < key x
      · simpa [h] using (ih.cons y).trans (List.Perm.swap x y ys)
      · simp [h]

theorem sortK_perm (key : α → Nat) (l : List α) : (sortK key l).Perm l := by
  induction l with
  | nil => exact List.Perm.refl _
  | cons x xs ih => exact (insortK_perm key x (sortK key xs)).trans (ih.cons x)

theorem insortK_pairwise (key : α → Nat) (x : α) (l : List α)
    (h : List.Pairwise (fun a b => key a ≤ key b) l) :
    List.Pairwise (fun a b => key a ≤ key b) (insortK key x l) := by
  induction l with
  | nil => simp [insortK]
  | cons y ys ih =>
      unfold insortK
      by_cases hlt : key y < key x
      · simp only [hlt, if_true]
        refine List.Pairwise.cons ?_ (ih h.tail)
        intro z hz
        rcases List.mem_cons.mp ((insortK_perm key x ys).mem_iff.mp hz) with hz' | hz'
        · subst hz'
          exact le_of_lt hlt
        · exact List.rel_of_pairwise_cons h hz'
      · simp only [hlt, if_false]
        refine List.Pairwise.cons ?_ h
        intro z hz
        rcases List.mem_cons.mp hz with hz | hz
        · exact hz ▸ le_of_not_lt hlt
        · exact le_trans (le_of_not_lt hlt) (List.rel_of_pairwise_cons h hz)

theorem sortK_pairwise (key : α → Nat) (l : List α) :
    List.Pairwise (fun a b => key a ≤ key b) (sortK key l) := by
  induction l with
  | nil => simp [sortK]
  | cons x xs ih => exact insortK_pairwise key x (sortK key xs) ih

theorem insortK_cons_of_lt (key : α → Nat) (x y : α) (l : List α)
    (h : key y < key x) : insortK key x (y :: l) = y :: insortK key x l := by
  simp [insortK, h]

theorem insortK_of_head (key : α → Nat) (x : α) (l : List α)
    (h : ∀ y, l.head? = some y → ¬ key y < key x) : insortK key x l = x :: l := by
  cases l with
  | nil => rfl
  | cons y ys => simp [insortK, h y rfl]

theorem sortK_of_sorted (key : α → Nat) (l : List α)
    (h : List.Pairwise (fun a b => key a < key b) l) : sortK key l = l := by
  induction l with
  | nil => rfl
  | cons x xs ih =>
      have hxs : sortK key xs = xs := ih h.tail
      unfold sortK
      rw [hxs]
      refine insortK_of_head key x xs ?_
      intro y hy
      cases xs with
      | nil => simp at hy
      | cons z zs =>
          simp only [List.head?, Option.some.injEq] at hy
          subst hy
          exact not_lt_of_gt (List.rel_of_pairwise_cons h (List.mem_cons_self z zs))

theorem sortK_append_min (key : α → Nat) (x : α) (l : List α)
    (h : ∀ y ∈ l, key x < key y) : sortK key (l ++ [x]) = x :: sortK key l := by
  induction l with
  | nil => rfl
  | cons a as ih =>
      have has : sortK key (as ++ [x]) = x :: sortK key as := by
        refine ih ?_
        intro y hy
        exact h y (List.mem_cons_of_mem a hy)
      have hx : key x < key a := h a (List.mem_cons_self a as)
      calc sortK key ((a :: as) ++ [x])
          = insortK key a (sortK key (as ++ [x])) := rfl
        _ = insortK key a (x :: sortK key as) := by rw [has]
        _ = x :: insortK key a (sortK key as) := insortK_cons_of_lt key a x _ hx
        _ = x :: sortK key (a :: as) := rfl

theorem sortK_eq_of_perm (key : α → Nat) (l m : List α)
    (hp : l.Perm m) (hm : List.Pairwise (fun a b => key a < key b) m) :
    sortK key l = m := by
  have h1 : (sortK key l).Perm m := (sortK_perm key l).trans hp
  have hle : List.Pairwise (fun a b => key a ≤ key b) (sortK key l) :=
    sortK_pairwise key l
  have hne' : List.Pairwise (fun a b => key a ≠ key b) m :=
    hm.imp (fun hab => Nat.ne_of_lt hab)
  have hne : List.Pairwise (fun a b => key a ≠ key b) (sortK key l) :=
    (List.Perm.pairwise_iff (fun hab => Ne.symm hab) h1).mpr hne'
  have hlt : List.Pairwise (fun a b => key a < key b) (sortK key l) :=
    (hle.and hne).imp (fun {a b} hab => lt_of_le_of_ne hab.1 hab.2)
  haveI : IsAntisymm α (fun a b => key a < key b) :=
    ⟨fun a b h1 h2 => absurd (h1.trans h2) (lt_irrefl _)⟩
  exact List.eq_of_perm_of_sorted h1 hlt hm

/-! ### Positional facts about the store -/

theorem groupCount_le (s : Store) (n : String) : groupCount s n ≤ s.length :=
  List.length_filter_le _ s

theorem insertPos_le (s : Store) (n : String) : insertPos s n ≤ s.length := by
  induction s with
  | nil => simp [insertPos, groupStart, groupCount]
  | cons r rs ih =>
      unfold insertPos groupStart groupCount at ih ⊢
      have hc : (List.filter (fun r => r.1.name == n) rs).length ≤ rs.length :=
        List.length_filter_le _ rs
      rw [List.findIdx_cons, List.filter_cons]
      by_cases h : r.1.name == n <;> simp [h] <;> omega

theorem getD_append_length (u : List α) (r : α) (w : List α) (d : α) :
    (u ++ r :: w).getD u.length d = r := by
  induction u with
  | nil => rfl
  | cons a as ih => simpa using ih

theorem set_append_length (u : List α) (r x : α) (w : List α) :
    (u ++ r :: w).set u.length x = u ++ x :: w := by
  induction u with
  | nil => rfl
  | cons a as ih => simp [List.set_cons_succ, ih]

/-! ### Step equations for the loader and the content collector -/

theorem processLine_header (s : Store) (cur : Option Nat) (ln : Nat) (line : String)
    (hh : isHeaderLine line = true) :
    processLine s cur ln line = Except.ok
      (s.take (insertPos s (sectionNameOf line.toList)) ++
        (⟨sectionNameOf line.toList, ln⟩, []) :: s.drop (insertPos s (sectionNameOf line.toList)),
       some (insertPos s (sectionNameOf line.toList))) := by
  simp [processLine, hh]

theorem processLine_skip (s : Store) (cur : Option Nat) (ln : Nat) (line : String)
    (hh : isHeaderLine line = false) (he : firstIdxOf '=' line.toList = none) :
    processLine s cur ln line = Except.ok (s, cur) := by
  have he' : firstIdxOf '=' line.data = none := he
  simp [processLine, hh, he']

theorem processLine_kv_empty (s : Store) (cur : Option Nat) (ln : Nat) (line : String)
    (eqPos : Nat) (hh : isHeaderLine line = false)
    (he : firstIdxOf '=' line.toList = some eqPos)
    (hev : kvKeyOf line eqPos = "" ∨ kvValOf line eqPos = "") :
    processLine s cur ln line = Except.error ⟨LoadErrKind.emptyField, ln⟩ := by
  have he' : firstIdxOf '=' line.data = some eqPos := he
  rcases hev with hev | hev <;> simp [processLine, hh, he', hev]

theorem processLine_kv_orphan (s : Store) (ln : Nat) (line : String)
    (eqPos : Nat) (hh : isHeaderLine line = false)
    (he : firstIdxOf '=' line.toList = some eqPos)
    (hk : ¬ kvKeyOf line eqPos = "") (hv : ¬ kvValOf line eqPos = "") :
    processLine s none ln line = Except.error ⟨LoadErrKind.orphanKey, ln⟩ := by
  have he' : firstIdxOf '=' line.data = some eqPos := he
  simp [processLine, hh, he', hk, hv]

theorem processLine_kv_dup (s : Store) (p : Nat) (ln : Nat) (line : String)
    (eqPos : Nat) (hh : isHeaderLine line = false)
    (he : firstIdxOf '=' line.toList = some eqPos)
    (hk : ¬ kvKeyOf line eqPos = "") (hv : ¬ kvValOf line eqPos = "")
    (hdup : (mapFind (recAt s p).2 (kvKeyOf line eqPos)).isSome = true) :
    processLine s (some p) ln line = Except.error ⟨LoadErrKind.duplicateKey, ln⟩ := by
  have he' : firstIdxOf '=' line.data = some eqPos := he
  simp [processLine, hh, he', hk, hv, hdup]

theorem processLine_kv_ok (s : Store) (p : Nat) (ln : Nat) (line : String)
    (eqPos : Nat) (hh : isHeaderLine line = false)
    (he : firstIdxOf '=' line.toList = some eqPos)
    (hk : ¬ kvKeyOf line eqPos = "") (hv : ¬ kvValOf line eqPos = "")
    (hdup : (mapFind (recAt s p).2 (kvKeyOf line eqPos)).isSome = false) :
    processLine s (some p) ln line = Except.ok
      (s.set p ((recAt s p).1,
        (recAt s p).2 ++ [(⟨kvKeyOf line eqPos, ln⟩, kvValOf line eqPos)]), some p) := by
  have he' : firstIdxOf '=' line.data = some eqPos := he
  simp [processLine, hh, he', hk, hv, hdup]

theorem loadAux_cons_ok (l : String) (ls : List String) (ln : Nat) (s : Store)
    (cur : Option Nat) (s2 : Store) (cur2 : Option Nat)
    (h : processLine s cur ln l = Except.ok (s2, cur2)) :
    loadAux (l :: ls) ln s cur = loadAux ls (ln + 1) s2 cur2 := by
  rw [loadAux, h]

theorem loadAux_cons_err (l : String) (ls : List String) (ln : Nat) (s : Store)
    (cur : Option Nat) (e : LoadErr)
    (h : processLine s cur ln l = Except.error e) :
    loadAux (l :: ls) ln s cur = Except.error e := by
  rw [loadAux, h]

theorem canonAux_header (l : String) (ls : List String) (ln : Nat)
    (done : List SectionRec) (curc : Option SectionRec) (hh : isHeaderLine l = true) :
    canonAux (l :: ls) ln done curc =
      canonAux ls (ln + 1) (done ++ curc.toList) (some (⟨sectionNameOf l.toList, ln⟩, [])) := by
  rw [canonAux]
  simp [hh]

theorem canonAux_kv (l : String) (ls : List String) (ln : Nat)
    (done : List SectionRec) (r : SectionRec) (eqPos : Nat)
    (hh : isHeaderLine l = false) (he : firstIdxOf '=' l.toList = some eqPos) :
    canonAux (l :: ls) ln done (some r) =
      canonAux ls (ln + 1) done
        (some (r.1, r.2 ++ [(⟨kvKeyOf l eqPos, ln⟩, kvValOf l eqPos)])) := by
  have he' : firstIdxOf '=' l.data = some eqPos := he
  rw [canonAux]
  simp [hh, he']

theorem canonAux_skip (l : String) (ls : List String) (ln : Nat)
    (done : List SectionRec) (curc : Option SectionRec)
    (hh : isHeaderLine l = false) (he : firstIdxOf '=' l.toList = none) :
    canonAux (l :: ls) ln done curc = canonAux ls (ln + 1) done curc := by
  have he' : firstIdxOf '=' l.data = none := he
  rw [canonAux]
  cases curc <;> simp [hh, he']

/-! ### The loaded store is a permutation of the file-order content -/

theorem loadAux_canon (ls : List String) :
    ∀ (ln : Nat) (s : Store) (cur : Option Nat)
      (done : List SectionRec) (curc : Option SectionRec),
    s.Perm (done ++ curc.toList) →
    ((cur = none ∧ curc = none ∧ s = [] ∧ done = []) ∨
      (∃ p r u w, cur = some p ∧ curc = some r ∧ s = u ++ r :: w ∧ u.length = p)) →
    List.Pairwise (fun a b => secKey a < secKey b) (done ++ curc.toList) →
    (∀ r ∈ done ++ curc.toList, r.1.lineNum < ln) →
    (∀ r ∈ done ++ curc.toList,
      List.Pairwise (fun a b => kvKey a < kvKey b) r.2 ∧
        ∀ kv ∈ r.2, kv.1.lineNum < ln) →
    ∀ s', loadAux ls ln s cur = Except.ok s' →
      s'.Perm (canonAux ls ln done curc) ∧
      List.Pairwise (fun a b => secKey a < secKey b) (canonAux ls ln done curc) ∧
      ∀ r ∈ canonAux ls ln done curc,
        List.Pairwise (fun a b => kvKey a < kvKey b) r.2 := by
  induction ls with
  | nil =>
      intro ln s cur done curc hperm hcur hsec hln hkeys s' hload
      rw [loadAux] at hload
      cases hload
      rw [canonAux]
      exact ⟨hperm, hsec, fun r hr => (hkeys r hr).1⟩
  | cons l rest ih =>
      intro ln s cur done curc hperm hcur hsec hln hkeys s' hload
      cases hh : isHeaderLine l with
      | true =>
          have hstep := processLine_header s cur ln l hh
          rw [loadAux_cons_ok l rest ln s cur _ _ hstep] at hload
          rw [canonAux_header l rest ln done curc hh]
          have hple : insertPos s (sectionNameOf l.toList) ≤ s.length :=
            insertPos_le s (sectionNameOf l.toList)
          have hs2 : (s.take (insertPos s (sectionNameOf l.toList)) ++
              (⟨sectionNameOf l.toList, ln⟩, ([] : KeyMap)) ::
                s.drop (insertPos s (sectionNameOf l.toList))).Perm
              ((⟨sectionNameOf l.toList, ln⟩, ([] : KeyMap)) :: s) := by
            have hmid := @List.perm_middle SectionRec
              (⟨sectionNameOf l.toList, ln⟩, ([] : KeyMap))
              (s.take (insertPos s (sectionNameOf l.toList)))
              (s.drop (insertPos s (sectionNameOf l.toList)))
            rwa [List.take_append_drop] at hmid
          refine ih (ln + 1) _ _ (done ++ curc.toList)
            (some (⟨sectionNameOf l.toList, ln⟩, [])) ?_ ?_ ?_ ?_ ?_ s' hload
          · exact hs2.trans ((hperm.cons _).trans (List.perm_append_singleton _ _).symm)
          · exact Or.inr ⟨insertPos s (sectionNameOf l.toList),
              (⟨sectionNameOf l.toList, ln⟩, []), s.take _, s.drop _, rfl, rfl, rfl,
              List.length_take_of_le hple⟩
          · refine List.pairwise_append.mpr ⟨hsec, List.pairwise_singleton _ _, ?_⟩
            intro a ha b hb
            simp only [Option.toList_some, List.mem_singleton] at hb
            subst hb
            exact hln a ha
          · intro r hr
            rcases List.mem_append.mp hr with hr | hr
            · exact Nat.lt_succ_of_lt (hln r hr)
            · simp only [Option.toList_some, List.mem_singleton] at hr
              subst hr
              exact Nat.lt_succ_self ln
          · intro r hr
            rcases List.mem_append.mp hr with hr | hr
            · obtain ⟨h1, h2⟩ := hkeys r hr
              exact ⟨h1, fun kv hkv => Nat.lt_succ_of_lt (h2 kv hkv)⟩
            · simp only [Option.toList_some, List.mem_singleton] at hr
              subst hr
              exact ⟨List.Pairwise.nil, by intro kv hkv; simp at hkv⟩
      | false =>
          cases he : firstIdxOf '=' l.toList with
          | none =>
              rw [loadAux_cons_ok l rest ln s cur s cur
                (processLine_skip s cur ln l hh he)] at hload
              rw [canonAux_skip l rest ln done curc hh he]
              refine ih (ln + 1) s cur done curc hperm hcur hsec ?_ ?_ s' hload
              · exact fun r hr => Nat.lt_succ_of_lt (hln r hr)
              · intro r hr
                obtain ⟨h1, h2⟩ := hkeys r hr
                exact ⟨h1, fun kv hkv => Nat.lt_succ_of_lt (h2 kv hkv)⟩
          | some eqPos =>
              by_cases hk : kvKeyOf l eqPos = ""
              · rw [loadAux_cons_err l rest ln s cur _
                  (processLine_kv_empty s cur ln l eqPos hh he (Or.inl hk))] at hload
                simp at hload
              by_cases hv : kvValOf l eqPos = ""
              · rw [loadAux_cons_err l rest ln s cur _
                  (processLine_kv_empty s cur ln l eqPos hh he (Or.inr hv))] at hload
                simp at hload
              cases cur with
              | none =>
                  rw [loadAux_cons_err l rest ln s none _
                    (processLine_kv_orphan s ln l eqPos hh he hk hv)] at hload
                  simp at hload
              | some p =>
                  rcases hcur with ⟨hcn, _, _, _⟩ | ⟨p', r, u, w, hcp, hcc, hsuw, hul⟩
                  · exact Option.noConfusion hcn
                  injection hcp with hpp
                  subst hpp
                  subst hcc
                  have hrec : recAt s p = r := by
                    rw [hsuw, ← hul]
                    exact getD_append_length u r w _
                  by_cases hdup : (mapFind r.2 (kvKeyOf l eqPos)).isSome = true
                  · rw [loadAux_cons_err l rest ln s (some p) _
                      (processLine_kv_dup s p ln l eqPos hh he hk hv
                        (by rw [hrec]; exact hdup))] at hload
                    simp at hload
                  · have hdup' : (mapFind (recAt s p).2 (kvKeyOf l eqPos)).isSome = false := by
                      rw [hrec]
                      exact Bool.eq_false_iff.mpr hdup
                    have hstep := processLine_kv_ok s p ln l eqPos hh he hk hv hdup'
                    rw [hrec] at hstep
                    rw [loadAux_cons_ok l rest ln s (some p) _ (some p) hstep] at hload
                    have hset : s.set p (r.1, r.2 ++
                        [(⟨kvKeyOf l eqPos, ln⟩, kvValOf l eqPos)]) =
                        u ++ (r.1, r.2 ++
                          [(⟨kvKeyOf l eqPos, ln⟩, kvValOf l eqPos)]) :: w := by
                      rw [hsuw, ← hul]
                      exact set_append_length u r _ w
                    rw [hset] at hload
                    rw [canonAux_kv l rest ln done r eqPos hh he]
                    have hperm0 : (u ++ r :: w).Perm (done ++ [r]) := by
                      rw [← hsuw]
                      simpa using hperm
                    have hud : (u ++ w).Perm done := by
                      have h1 : (r :: (u ++ w)).Perm (r :: done) :=
                        (List.perm_middle.symm.trans hperm0).trans
                          (List.perm_append_singleton r done)
                      exact h1.cons_inv
                    have hsec0 : List.Pairwise (fun a b => secKey a < secKey b)
                        (done ++ [r]) := by simpa using hsec
                    have hln0 : ∀ x ∈ done ++ [r], x.1.lineNum < ln := by simpa using hln
                    have hkeys0 : ∀ x ∈ done ++ [r],
                        List.Pairwise (fun a b => kvKey a < kvKey b) x.2 ∧
                          ∀ kv ∈ x.2, kv.1.lineNum < ln := by simpa using hkeys
                    refine ih (ln + 1) _ (some p) done
                      (some (r.1, r.2 ++ [(⟨kvKeyOf l eqPos, ln⟩, kvValOf l eqPos)]))
                      ?_ ?_ ?_ ?_ ?_ s' hload
                    · show (u ++ _ :: w).Perm (done ++ [_])
                      exact List.perm_middle.trans
                        ((hud.cons _).trans (List.perm_append_singleton _ done).symm)
                    · exact Or.inr ⟨p, _, u, w, rfl, rfl, rfl, hul⟩
                    · rcases List.pairwise_append.mp hsec0 with ⟨hd, _, hrel⟩
                      refine List.pairwise_append.mpr ⟨hd, List.pairwise_singleton _ _, ?_⟩
                      intro a ha b hb
                      simp only [Option.toList_some, List.mem_singleton] at hb
                      subst hb
                      exact hrel a ha r (List.mem_singleton.mpr rfl)
                    · intro x hx
                      rcases List.mem_append.mp hx with hx | hx
                      · exact Nat.lt_succ_of_lt (hln0 x (List.mem_append.mpr (Or.inl hx)))
                      · simp only [Option.toList_some, List.mem_singleton] at hx
                        subst hx
                        exact Nat.lt_succ_of_lt
                          (hln0 r (List.mem_append.mpr (Or.inr (List.mem_singleton.mpr rfl))))
                    · intro x hx
                      rcases List.mem_append.mp hx with hx | hx
                      · obtain ⟨h1, h2⟩ := hkeys0 x (List.mem_append.mpr (Or.inl hx))
                        exact ⟨h1, fun kv hkv => Nat.lt_succ_of_lt (h2 kv hkv)⟩
                      · simp only [Option.toList_some, List.mem_singleton] at hx
                        subst hx
                        obtain ⟨h1, h2⟩ := hkeys0 r
                          (List.mem_append.mpr (Or.inr (List.mem_singleton.mpr rfl)))
                        constructor
                        · refine List.pairwise_append.mpr
                            ⟨h1, List.pairwise_singleton _ _, ?_⟩
                          intro a ha b hb
                          simp only [Option.toList_some, List.mem_singleton] at hb
                          subst hb
                          exact h2 a ha
                        · intro kv hkv
                          rcases List.mem_append.mp hkv with hkv | hkv
                          · exact Nat.lt_succ_of_lt (h2 kv hkv)
                          · simp only [List.mem_singleton] at hkv
                            subst hkv
                            exact Nat.lt_succ_self ln

/-! ### Auxiliary facts for the accessor layer -/

theorem recAt_set (s : Store) (r' : SectionRec) :
    ∀ p, p < s.length → recAt (s.set p r') p = r' := by
  induction s with
  | nil =>
      intro p hp
      simp at hp
  | cons a as ih =>
      intro p hp
      cases p with
      | zero => rfl
      | succ q =>
          simpa [recAt, List.set_cons_succ, List.getD_cons_succ] using
            ih q (by simpa using hp)

theorem set_recAt_self (s : Store) : ∀ p, s.set p (recAt s p) = s := by
  unfold recAt
  induction s with
  | nil => intro p; rfl
  | cons a as ih =>
      intro p
      cases p with
      | zero => rfl
      | succ q =>
          have ihq := ih q
          simp only [List.getD_cons_succ, List.set_cons_succ]
          rw [ihq]

theorem getIterator_lt (s : Store) (h : IniSection) (p : Nat)
    (hres : getIterator s h = some p) : p < s.length := by
  unfold getIterator at hres
  split_ifs at hres with h1 h2 h3
  injection hres with hp
  subst hp
  exact h3

instance {ε α : Type} [DecidableEq ε] [DecidableEq α] : DecidableEq (Except ε α) :=
  fun a b =>
    match a, b with
    | Except.ok x, Except.ok y => decidable_of_iff (x = y) (by simp)
    | Except.error e, Except.error f => decidable_of_iff (e = f) (by simp)
    | Except.ok _, Except.error _ => isFalse (by simp)
    | Except.error _, Except.ok _ => isFalse (by simp)

/-! ### Demonstration stores (the values of `load` on small inputs) -/

/-- `load ["[A]", "k=1"]`. -/
def demoA : Store := [(⟨"A", 1⟩, [(⟨"k", 2⟩, "1")])]

/-- `load ["[A]", "k=1", "[B]", "k=2"]`. -/
def demoAB : Store := [(⟨"A", 1⟩, [(⟨"k", 2⟩, "1")]), (⟨"B", 3⟩, [(⟨"k", 4⟩, "2")])]

/-- `load ["[A]", "k=abc"]` (a value no `int` extraction accepts). -/
def demoU : Store := [(⟨"A", 1⟩, [(⟨"k", 2⟩, "abc")])]

/-- `load ["[A]", "b1=On"]`. -/
def demoBool : Store := [(⟨"A", 1⟩, [(⟨"b1", 2⟩, "On")])]

/-! ### The claims -/

/-- C1: for every sequence of input lines `L` that `load` accepts without
error, `save` on the resulting store emits exactly the file-order content of
`L` — the same sections by name and order, the same keys per section in file
order, and the same values — rendered as `[name]`, `key = value` (one space
around `=`) and one blank line per section. -/
theorem c1_round_trip (L : List String) (s : Store) (h : load L = Except.ok s) :
    save s = canonRender L := by
  obtain ⟨hperm, hsec, hkeys⟩ :=
    loadAux_canon L 1 [] none [] none (List.Perm.refl _) (Or.inl ⟨rfl, rfl, rfl, rfl⟩)
      List.Pairwise.nil (by intro r hr; simp at hr) (by intro r hr; simp at hr) s h
  have hmap : s.map (fun r => (r.1, sortK kvKey r.2)) = s := by
    have hcongr : ∀ r ∈ s, (r.1, sortK kvKey r.2) = id r := by
      intro r hr
      have hr' : r ∈ canonAux L 1 [] none := hperm.mem_iff.mp hr
      simp [sortK_of_sorted kvKey r.2 (hkeys r hr')]
    rw [List.map_congr_left hcongr, List.map_id]
  have harr : saveArr s = canonRecs L := by
    unfold saveArr
    rw [hmap]
    exact sortK_eq_of_perm secKey s (canonRecs L) hperm hsec
  unfold save canonRender
  rw [harr]

/-- Witness for C1 at a concrete accepted input. -/
theorem c1_round_trip_witness :
    save [(⟨"A", 1⟩, [(⟨"k", 2⟩, "v")]), (⟨"B", 4⟩, [(⟨"x", 5⟩, "1")])] =
      canonRender ["[A]", "k = v", "", "[B]", "x=1"] :=
  c1_round_trip ["[A]", "k = v", "", "[B]", "x=1"] _ (by decide)

/-- C2: the claim says a handle with `occurrenceIndex` equal to the number
`k` of same-named records must fail to resolve (`sectionExists` false, `read`
falling back to the default).  The guard in `IniFile::getIterator` is
`getIndex() >= distance + 1`, which ACCEPTS `occurrenceIndex = k` and advances
one past the name group, landing on the next record in iteration order: here
`"A"` has one record, yet index 1 resolves — to section `"B"` — and `read`
returns B's value instead of the default. -/
theorem c2_occurrence_boundary_bug :
    load ["[A]", "k=1", "[B]", "k=2"] = Except.ok demoAB ∧
    groupCount demoAB "A" = 1 ∧
    sectionExists demoAB ⟨"A", 0, 0⟩ = true ∧
    sectionExists demoAB ⟨"A", 1, 0⟩ = true ∧
    sectionExists demoAB ⟨"A", 2, 0⟩ = false ∧
    (readString demoAB ⟨"A", 1, 0⟩ "k" "DFLT").1 = "2" := by
  decide

/-- C3: the claim says both halves of a key/value line are stored with all
leading and trailing spaces removed, e.g. `" ab "` becomes `"ab"`.
`IniFile::readWord` passes the trim END POSITION as `substr`'s COUNT
argument, so a half with both leading and trailing spaces keeps trailing
spaces: `" ab "` is stored as `"ab "`, and `" k = v "` loads key `"k "` and
value `"v "`. -/
theorem c3_readword_trailing_space_bug :
    readWord " ab " = "ab " ∧
    readWord " ab " ≠ "ab" ∧
    load ["[A]", " k = v "] = Except.ok [(⟨"A", 1⟩, [(⟨"k ", 2⟩, "v ")])] := by
  decide

/-- C7: for a resolvable handle and a present key, `read<bool>` returns
`true` exactly when the stored value, lowercased, is one of
`alias::trueValue` (`"true"`, `"on"`, `"yes"`, `"1"`), `false` for every
other stored text independently of the supplied default; the default is
returned only when the handle does not resolve or the key is absent. -/
theorem c7_read_bool_semantics : ∀ (st : Store) (h : IniSection) (k : String) (d : Bool),
    (∀ p kv, getIterator st h = some p → mapFind (recAt st p).2 k = some kv →
      ((readBool st h k d).1 = true ↔ lowerStr kv.2 ∈ trueAliases)) ∧
    (getIterator st h = none → (readBool st h k d).1 = d) ∧
    (∀ p, getIterator st h = some p → mapFind (recAt st p).2 k = none →
      (readBool st h k d).1 = d) := by
  intro st h k d
  refine ⟨?_, ?_, ?_⟩
  · intro p kv hres hfind
    simp [readBool, hres, mapBracket, hfind]
  · intro hres
    simp [readBool, hres]
  · intro p hres hfind
    simp [readBool, hres, hfind]

/-- Witness for C7: value `"On"` reads as `true`, and with no `"2"` alias a
value `"2"` would read `false`; concretely discharges the hypotheses. -/
theorem c7_read_bool_semantics_witness :
    (readBool demoBool ⟨"A", 0, 0⟩ "b1" false).1 = true ↔ lowerStr "On" ∈ trueAliases :=
  (c7_read_bool_semantics demoBool ⟨"A", 0, 0⟩ "b1" false).1 0 (⟨"b1", 2⟩, "On")
    (by decide) (by decide)

/-- C8: when the handle does not resolve, or resolves to a section with no
key of the requested name, every typed `read` returns exactly the supplied
default, and the store is left unchanged by the read (in all cases). -/
theorem c8_default_fallback : ∀ (st : Store) (h : IniSection) (k : String),
    (getIterator st h = none →
      ∀ (dI : Int) (dB : Bool) (dS : String),
        readInt st h k dI = (dI, st) ∧ readBool st h k dB = (dB, st) ∧
          readString st h k dS = (dS, st)) ∧
    (∀ p, getIterator st h = some p → mapFind (recAt st p).2 k = none →
      ∀ (dI : Int) (dB : Bool) (dS : String),
        readInt st h k dI = (dI, st) ∧ readBool st h k dB = (dB, st) ∧
          readString st h k dS = (dS, st)) ∧
    (∀ (dI : Int) (dB : Bool) (dS : String),
      (readInt st h k dI).2 = st ∧ (readBool st h k dB).2 = st ∧
        (readString st h k dS).2 = st) := by
  intro st h k
  refine ⟨?_, ?_, ?_⟩
  · intro hres dI dB dS
    simp [readInt, readBool, readString, hres]
  · intro p hres hfind dI dB dS
    simp [readInt, readBool, readString, hres, hfind]
  · intro dI dB dS
    cases hres : getIterator st h with
    | none => simp [readInt, readBool, readString, hres]
    | some p =>
        cases hfind : mapFind (recAt st p).2 k with
        | none => simp [readInt, readBool, readString, hres, hfind]
        | some kv =>
            simp [readInt, readBool, readString, hres, hfind, mapBracket,
              set_recAt_self st p]

/-- Witness for C8: `read<int>(handle, "missing", 42)` on an existing section
returns `42`, and on an unresolvable handle returns the default too. -/
theorem c8_default_fallback_witness :
    readInt demoA ⟨"A", 0, 0⟩ "missing" 42 = (42, demoA) ∧
    readInt demoA ⟨"Z", 0, 0⟩ "k" 7 = (7, demoA) :=
  ⟨((c8_default_fallback demoA ⟨"A", 0, 0⟩ "missing").2.1 0 (by decide) (by decide)
      42 true "x").1,
   ((c8_default_fallback demoA ⟨"Z", 0, 0⟩ "k").1 (by decide) 7 true "x").1⟩

/-- C9: the claim says `read`, `keyExists` and `getKeyLineNum` always degrade
to defaults/sentinels.  `read` and `keyExists` do, and `getKeyLineNum` on an
UNRESOLVED handle returns the sentinel `0` — but on a resolved section with
an absent key it dereferences the past-the-end iterator returned by `find`
(undefined behaviour, modelled as `none`), not a NotFound sentinel. -/
theorem c9_getkeylinenum_ub :
    load ["[A]", "k=1"] = Except.ok demoA ∧
    keyExists demoA ⟨"A", 0, 0⟩ "missing" = false ∧
    (readInt demoA ⟨"A", 0, 0⟩ "missing" 42).1 = 42 ∧
    getKeyLineNum demoA ⟨"A", 0, 0⟩ "missing" = none ∧
    getKeyLineNum demoA ⟨"Z", 0, 0⟩ "k" = some 0 := by
  decide

/-- C10: for a resolvable handle and a present key, the generic (non-bool,
non-string) `read<T>` is independent of the supplied default — the result is
stream extraction from the stored text alone, even when extraction fails. -/
theorem c10_default_independent (st : Store) (h : IniSection) (k : String)
    (p : Nat) (kv : element × String)
    (hres : getIterator st h = some p)
    (hfind : mapFind (recAt st p).2 k = some kv) :
    (∀ d1 d2 : Int, readInt st h k d1 = readInt st h k d2) ∧
    ∀ d : Int, (readInt st h k d).1 = extractInt kv.2 := by
  constructor
  · intro d1 d2
    simp [readInt, hres, hfind, mapBracket]
  · intro d
    simp [readInt, hres, hfind, mapBracket]

/-- Witness for C10: on stored text `"abc"` (which fails `int` extraction and
stores 0), the defaults 5 and 99 give the same result. -/
theorem c10_default_independent_witness :
    readInt demoU ⟨"A", 0, 0⟩ "k" 5 = readInt demoU ⟨"A", 0, 0⟩ "k" 99 ∧
    (readInt demoU ⟨"A", 0, 0⟩ "k" 5).1 = 0 := by
  have hmain := c10_default_independent demoU ⟨"A", 0, 0⟩ "k" 0 (⟨"k", 2⟩, "abc")
    (by decide) (by decide)
  exact ⟨hmain.1 5 99, by rw [hmain.2 5]; decide⟩

theorem mapBracketSet_absent (m : KeyMap) (k v : String)
    (h : mapFind m k = none) : mapBracketSet m k v = m ++ [(⟨k, 0⟩, v)] := by
  simp [mapBracketSet, h]

/-- C5 counterexample: the claim says a key added by `writeKeyValue` to a
loaded section is emitted AFTER the section's file keys at the next save.
In the code `it->second[key] = ...` inserts the new key with `_lineNum = 0`,
which sorts BEFORE every file key (file keys have `_lineNum ≥ 1`): after
loading `["[A]", "k = 1"]` and writing key `"n"`, save emits `n = 5` first. -/
theorem c5_counterexample :
    load ["[A]", "k = 1"] = Except.ok demoA ∧
    save (writeKeyValueInt demoA ⟨"A", 0, 0⟩ "n" 5) = ["[A]", "n = 5", "k = 1", ""] ∧
    save (writeKeyValueInt demoA ⟨"A", 0, 0⟩ "n" 5) ≠ ["[A]", "k = 1", "n = 5", ""] := by
  decide

/-- C5 amended: a key added by `writeKeyValue` receives `sourceLine 0`, so at
the next save it is ordered BEFORE all of the section's keys that came from
the file (which carry `sourceLine ≥ 1`) — ascending-`sourceLine` ordering
holds, with the new key first, not last. -/
theorem c5_new_key_sorts_first (st : Store) (h : IniSection) (k v : String) (p : Nat)
    (hres : getIterator st h = some p)
    (habs : mapFind (recAt st p).2 k = none)
    (hpos : ∀ kv ∈ (recAt st p).2, 1 ≤ kv.1.lineNum) :
    sortK kvKey ((recAt (writeKeyValueStr st h k v) p).2) =
      (⟨k, 0⟩, v) :: sortK kvKey ((recAt st p).2) := by
  have hp := getIterator_lt st h p hres
  have hw : writeKeyValueStr st h k v =
      st.set p ((recAt st p).1, mapBracketSet (recAt st p).2 k v) := by
    simp [writeKeyValueStr, hres]
  rw [hw, mapBracketSet_absent _ _ _ habs, recAt_set st _ p hp]
  exact sortK_append_min kvKey _ _
    (fun y hy => Nat.lt_of_lt_of_le Nat.zero_lt_one (hpos y hy))

/-- Witness for C5's amended statement at the store of `load ["[A]","k=1"]`. -/
theorem c5_new_key_sorts_first_witness :
    sortK kvKey ((recAt (writeKeyValueStr demoA ⟨"A", 0, 0⟩ "n" "5") 0).2) =
      (⟨"n", 0⟩, "5") :: sortK kvKey ((recAt demoA 0).2) :=
  c5_new_key_sorts_first demoA ⟨"A", 0, 0⟩ "n" "5" 0 (by decide) (by decide) (by decide)

/-- C6 counterexample: the claim says equal-`sourceLine` ties are emitted in
relative insertion order.  The multimap keeps same-named records ADJACENT in
iteration order, so creating sections `A`, `B`, `A` (all `sourceLine 0`)
yields iteration order `A, A, B`, and save — whose sort has nothing to
distinguish the tied records — emits `A, A, B`, not the insertion order
`A, B, A`. -/
theorem c6_counterexample :
    (writeSection (writeSection (writeSection [] "A").1 "B").1 "A").1 =
      [(⟨"A", 0⟩, []), (⟨"A", 0⟩, []), (⟨"B", 0⟩, [])] ∧
    save [(⟨"A", 0⟩, []), (⟨"A", 0⟩, []), (⟨"B", 0⟩, [])] =
      ["[A]", "", "[A]", "", "[B]", ""] ∧
    save [(⟨"A", 0⟩, []), (⟨"A", 0⟩, []), (⟨"B", 0⟩, [])] ≠
      ["[A]", "", "[B]", "", "[A]", ""] := by
  decide

/-- C6 amended: `save` renders the store's records sorted by ascending
`sourceLine` (so a section parsed at line 3 is emitted before one parsed at
line 10, whatever their store order), each section's keys sorted by ascending
`sourceLine`, each section as `[name]`, then `key = value` lines (one space
on each side of `=`), then one blank line.  Ties in `sourceLine` are emitted
in the store's iteration order (same-named sections grouped), not insertion
order. -/
theorem c6_save_sorted : ∀ s : Store,
    save s = ((saveArr s).map renderBlock).flatten ∧
    (saveArr s).Perm (s.map (fun r => (r.1, sortK kvKey r.2))) ∧
    List.Pairwise (fun a b => secKey a ≤ secKey b) (saveArr s) ∧
    (∀ r ∈ saveArr s, List.Pairwise (fun a b => kvKey a ≤ kvKey b) r.2) ∧
    save [(⟨"B", 10⟩, [(⟨"x", 11⟩, "2")]), (⟨"A", 3⟩, [(⟨"y", 4⟩, "1")])] =
      ["[A]", "y = 1", "", "[B]", "x = 2", ""] := by
  intro s
  refine ⟨rfl, sortK_perm secKey _, sortK_pairwise secKey _, ?_, by decide⟩
  intro r hr
  have hr' : r ∈ s.map (fun r => (r.1, sortK kvKey r.2)) :=
    (sortK_perm secKey _).mem_iff.mp hr
  obtain ⟨x, _, hx⟩ := List.mem_map.mp hr'
  rw [← hx]
  exact sortK_pairwise kvKey x.2

/-- Witness for C6's amended statement at a concrete store. -/
theorem c6_save_sorted_witness :
    List.Pairwise (fun a b => secKey a ≤ secKey b)
      (saveArr [(⟨"B", 10⟩, [(⟨"x", 11⟩, "2")]), (⟨"A", 3⟩, [(⟨"y", 4⟩, "1")])]) :=
  (c6_save_sorted [(⟨"B", 10⟩, [(⟨"x", 11⟩, "2")]), (⟨"A", 3⟩, [(⟨"y", 4⟩, "1")])]).2.2.1

/-! ### Helper facts for the loader-failure characterization -/

theorem lastHeaderIdx_lt (L : List String) : ∀ j m, lastHeaderIdx L j = some m → m < j := by
  intro j
  induction j with
  | zero =>
      intro m hm
      simp [lastHeaderIdx] at hm
  | succ jj ih =>
      intro m hm
      rw [lastHeaderIdx] at hm
      split_ifs at hm
      · injection hm with hm'
        omega
      · exact Nat.lt_succ_of_lt (ih m hm)

theorem min_offend_shift (L : List String) (i : Nat) (hno : ¬ offends L i) (n : Nat) :
    (∃ j, i ≤ j ∧ offends L j ∧ n = j + 1 ∧ ∀ j', i ≤ j' → j' < j → ¬ offends L j') ↔
    (∃ j, i + 1 ≤ j ∧ offends L j ∧ n = j + 1 ∧
      ∀ j', i + 1 ≤ j' → j' < j → ¬ offends L j') := by
  constructor
  · rintro ⟨j, hij, hoff, hn, hmin⟩
    have hij' : i + 1 ≤ j := by
      rcases Nat.eq_or_lt_of_le hij with h | h
      · exact absurd (h ▸ hoff) hno
      · exact h
    exact ⟨j, hij', hoff, hn, fun j' h1 h2 => hmin j' (by omega) h2⟩
  · rintro ⟨j, hij, hoff, hn, hmin⟩
    refine ⟨j, by omega, hoff, hn, fun j' h1 h2 => ?_⟩
    by_cases hji : j' = i
    · subst hji
      exact hno
    · exact hmin j' (by omega) h2

theorem err_iff_min (L : List String) (i : Nat) (hoff : offends L i)
    (e : Except LoadErr Store) (kk : LoadErrKind)
    (hE : e = Except.error ⟨kk, i + 1⟩) :
    ∀ n, (∃ k, e = Except.error ⟨k, n⟩) ↔
      (∃ j, i ≤ j ∧ offends L j ∧ n = j + 1 ∧
        ∀ j', i ≤ j' → j' < j → ¬ offends L j') := by
  subst hE
  intro n
  constructor
  · rintro ⟨k, hk⟩
    injection hk with hk'
    cases hk'
    exact ⟨i, Nat.le_refl i, hoff, rfl,
      fun j' h1 h2 => absurd (Nat.lt_of_le_of_lt h1 h2) (lt_irrefl i)⟩
  · rintro ⟨j, hij, hoffj, hn, hmin⟩
    have hji : j = i := by
      by_contra hne
      exact hmin i (Nat.le_refl i) (by omega) hoff
    subst hji
    subst hn
    exact ⟨kk, rfl⟩

theorem drop_cons_facts (L : List String) (i : Nat) (l : String) (ds : List String)
    (h : L.drop i = l :: ds) :
    lineAt L i = l ∧ L.drop (i + 1) = ds ∧ i < L.length := by
  have h0 : L[i]? = some l := by
    have h1 := List.getElem?_drop L i 0
    rw [h] at h1
    simpa using h1.symm
  refine ⟨?_, ?_, ?_⟩
  · unfold lineAt
    rw [List.getD_eq_getElem?_getD, h0]
    rfl
  · have h2 := List.tail_drop L i
    rw [h] at h2
    simpa using h2.symm
  · have h3 := List.length_drop i L
    rw [h] at h3
    simp at h3
    omega

theorem lastHeaderIdx_succ_header (L : List String) (i : Nat)
    (hh : isHeaderLine (lineAt L i) = true) :
    lastHeaderIdx L (i + 1) = some i := by
  rw [lastHeaderIdx]
  simp [hh]

theorem lastHeaderIdx_succ_not (L : List String) (i : Nat)
    (hh : isHeaderLine (lineAt L i) = false) :
    lastHeaderIdx L (i + 1) = lastHeaderIdx L i := by
  rw [lastHeaderIdx]
  simp [hh]

theorem currentKeys_after_header (L : List String) (i : Nat)
    (hh : isHeaderLine (lineAt L i) = true) : currentKeys L (i + 1) = [] := by
  unfold currentKeys kvIdxs
  rw [lastHeaderIdx_succ_header L i hh]
  have hnil : (List.range (i + 1)).filter
      (fun j => isKVLine (lineAt L j) && (lastHeaderIdx L j == some i)) = [] := by
    rw [List.filter_eq_nil_iff]
    intro j hj hcond
    rw [Bool.and_eq_true, beq_iff_eq] at hcond
    have hlt := lastHeaderIdx_lt L j i hcond.2
    rw [List.mem_range] at hj
    omega
  rw [hnil]
  rfl

theorem kvIdxs_succ_not_header (L : List String) (i : Nat)
    (hh : isHeaderLine (lineAt L i) = false) :
    kvIdxs L (i + 1) = kvIdxs L i ++
      (if isKVLine (lineAt L i) = true then [i] else []) := by
  unfold kvIdxs
  rw [lastHeaderIdx_succ_not L i hh, List.range_succ, List.filter_append]
  congr 1
  by_cases hkv : isKVLine (lineAt L i) = true <;> simp [hkv]

theorem currentKeys_succ_kv (L : List String) (i : Nat)
    (hh : isHeaderLine (lineAt L i) = false) (hkv : isKVLine (lineAt L i) = true) :
    currentKeys L (i + 1) = currentKeys L i ++ [(⟨keyAt L i, i + 1⟩, valueAt L i)] := by
  unfold currentKeys
  rw [kvIdxs_succ_not_header L i hh]
  simp [hkv]

theorem currentKeys_succ_skip (L : List String) (i : Nat)
    (hh : isHeaderLine (lineAt L i) = false) (hkv : isKVLine (lineAt L i) = false) :
    currentKeys L (i + 1) = currentKeys L i := by
  unfold currentKeys
  rw [kvIdxs_succ_not_header L i hh]
  simp [hkv]

theorem keyAt_eq (L : List String) (i : Nat) (l : String) (eqPos : Nat)
    (hl : lineAt L i = l) (he : firstIdxOf '=' l.toList = some eqPos) :
    keyAt L i = kvKeyOf l eqPos := by
  unfold keyAt
  rw [hl, he]

theorem valueAt_eq (L : List String) (i : Nat) (l : String) (eqPos : Nat)
    (hl : lineAt L i = l) (he : firstIdxOf '=' l.toList = some eqPos) :
    valueAt L i = kvValOf l eqPos := by
  unfold valueAt
  rw [hl, he]

theorem mapFind_currentKeys_isSome (L : List String) (i : Nat) (k : String) :
    (mapFind (currentKeys L i) k).isSome = true ↔
      ∃ j, j < i ∧ isKVLine (lineAt L j) = true ∧
        lastHeaderIdx L j = lastHeaderIdx L i ∧ keyAt L j = k := by
  unfold mapFind currentKeys kvIdxs
  rw [List.find?_isSome]
  constructor
  · rintro ⟨x, hx, hpx⟩
    obtain ⟨j, hj, hxe⟩ := List.mem_map.mp hx
    subst hxe
    rw [List.mem_filter, List.mem_range] at hj
    obtain ⟨hjr, hcond⟩ := hj
    rw [Bool.and_eq_true, beq_iff_eq] at hcond
    refine ⟨j, hjr, hcond.1, hcond.2, ?_⟩
    simpa [beq_iff_eq] using hpx
  · rintro ⟨j, hj1, hj2, hj3, hj4⟩
    refine ⟨(⟨keyAt L j, j + 1⟩, valueAt L j), ?_, by simp [hj4]⟩
    apply List.mem_map_of_mem
    rw [List.mem_filter, List.mem_range]
    refine ⟨hj1, ?_⟩
    rw [Bool.and_eq_true, beq_iff_eq]
    exact ⟨hj2, hj3⟩

/-- The loader fails with line number `n` exactly when `n - 1` is the first
position (at or after the scan point) that `offends`: the invariant ties the
current-section cursor and its key map to the declarative description of the
prefix already consumed. -/
theorem loadAux_offends (d : List String) :
    ∀ (L : List String) (i : Nat) (s : Store) (cur : Option Nat),
    L.drop i = d →
    (cur = none ↔ lastHeaderIdx L i = none) →
    (∀ p, cur = some p → p < s.length ∧ (recAt s p).2 = currentKeys L i) →
    ∀ n, (∃ k, loadAux d (i + 1) s cur = Except.error ⟨k, n⟩) ↔
      (∃ j, i ≤ j ∧ offends L j ∧ n = j + 1 ∧
        ∀ j', i ≤ j' → j' < j → ¬ offends L j') := by
  induction d with
  | nil =>
      intro L i s cur hdrop hiff hcur n
      constructor
      · rintro ⟨k, hk⟩
        rw [loadAux] at hk
        exact Except.noConfusion hk
      · rintro ⟨j, hij, hoff, hn, hmin⟩
        have h1 := List.length_drop i L
        rw [hdrop] at h1
        simp at h1
        have h2 := hoff.1
        omega
  | cons l ds ih =>
      intro L i s cur hdrop hiff hcur n
      obtain ⟨hl, hdrop1, hilen⟩ := drop_cons_facts L i l ds hdrop
      cases hh : isHeaderLine l with
      | true =>
          have hhl : isHeaderLine (lineAt L i) = true := by rw [hl]; exact hh
          rw [loadAux_cons_ok l ds (i + 1) s cur _ _ (processLine_header s cur (i + 1) l hh)]
          have hho : ¬ offends L i := by
            intro hoff
            have hkv := hoff.2.1
            rw [hl] at hkv
            simp [isKVLine, hh] at hkv
          rw [min_offend_shift L i hho n]
          have h1 : (s.take (insertPos s (sectionNameOf l.toList))).length =
              insertPos s (sectionNameOf l.toList) :=
            List.length_take_of_le (insertPos_le s _)
          refine ih L (i + 1) _ (some (insertPos s (sectionNameOf l.toList)))
            hdrop1 ?_ ?_ n
          · constructor
            · intro hc
              exact Option.noConfusion hc
            · intro hc
              rw [lastHeaderIdx_succ_header L i hhl] at hc
              exact Option.noConfusion hc
          · intro p hp
            injection hp with hp'
            subst hp'
            constructor
            · rw [List.length_append, h1]
              simp
            · have hgd := getD_append_length
                (s.take (insertPos s (sectionNameOf l.toList)))
                ((⟨sectionNameOf l.toList, i + 1⟩ : element), ([] : KeyMap))
                (s.drop (insertPos s (sectionNameOf l.toList)))
                ((⟨"", 0⟩ : element), ([] : KeyMap))
              rw [h1] at hgd
              unfold recAt
              rw [hgd]
              exact (currentKeys_after_header L i hhl).symm
      | false =>
          have hhl : isHeaderLine (lineAt L i) = false := by rw [hl]; exact hh
          cases he : firstIdxOf '=' l.toList with
          | none =>
              have hkvf : isKVLine (lineAt L i) = false := by
                have he2 : firstIdxOf '=' l.data = none := he
                rw [hl]
                simp [isKVLine, hh, he2]
              rw [loadAux_cons_ok l ds (i + 1) s cur s cur
                (processLine_skip s cur (i + 1) l hh he)]
              have hho : ¬ offends L i := by
                intro hoff
                rw [hoff.2.1] at hkvf
                exact Bool.noConfusion hkvf
              rw [min_offend_shift L i hho n]
              refine ih L (i + 1) s cur hdrop1 ?_ ?_ n
              · rw [lastHeaderIdx_succ_not L i hhl]
                exact hiff
              · intro p hp
                obtain ⟨hA, hB⟩ := hcur p hp
                refine ⟨hA, ?_⟩
                rw [currentKeys_succ_skip L i hhl hkvf]
                exact hB
          | some eqPos =>
              have hkvt : isKVLine (lineAt L i) = true := by
                have he2 : firstIdxOf '=' l.data = some eqPos := he
                rw [hl]
                simp [isKVLine, hh, he2]
              have hkeyeq := keyAt_eq L i l eqPos hl he
              have hvaleq := valueAt_eq L i l eqPos hl he
              by_cases hk : kvKeyOf l eqPos = ""
              · have hoff : offends L i :=
                  ⟨hilen, hkvt, Or.inl (by rw [hkeyeq]; exact hk)⟩
                exact err_iff_min L i hoff _ LoadErrKind.emptyField
                  (loadAux_cons_err l ds (i + 1) s cur _
                    (processLine_kv_empty s cur (i + 1) l eqPos hh he (Or.inl hk))) n
              by_cases hv : kvValOf l eqPos = ""
              · have hoff : offends L i :=
                  ⟨hilen, hkvt, Or.inr (Or.inl (by rw [hvaleq]; exact hv))⟩
                exact err_iff_min L i hoff _ LoadErrKind.emptyField
                  (loadAux_cons_err l ds (i + 1) s cur _
                    (processLine_kv_empty s cur (i + 1) l eqPos hh he (Or.inr hv))) n
              cases cur with
              | none =>
                  have hlhn : lastHeaderIdx L i = none := hiff.mp rfl
                  have hoff : offends L i :=
                    ⟨hilen, hkvt, Or.inr (Or.inr (Or.inl hlhn))⟩
                  exact err_iff_min L i hoff _ LoadErrKind.orphanKey
                    (loadAux_cons_err l ds (i + 1) s none _
                      (processLine_kv_orphan s (i + 1) l eqPos hh he hk hv)) n
              | some p =>
                  obtain ⟨hplen, hpkeys⟩ := hcur p rfl
                  by_cases hdup : (mapFind (recAt s p).2 (kvKeyOf l eqPos)).isSome = true
                  · have hex : ∃ j, j < i ∧ isKVLine (lineAt L j) = true ∧
                        lastHeaderIdx L j = lastHeaderIdx L i ∧ keyAt L j = keyAt L i := by
                      rw [hpkeys] at hdup
                      obtain ⟨j, h1, h2, h3, h4⟩ :=
                        (mapFind_currentKeys_isSome L i (kvKeyOf l eqPos)).mp hdup
                      exact ⟨j, h1, h2, h3, by rw [hkeyeq]; exact h4⟩
                    have hoff : offends L i :=
                      ⟨hilen, hkvt, Or.inr (Or.inr (Or.inr hex))⟩
                    exact err_iff_min L i hoff _ LoadErrKind.duplicateKey
                      (loadAux_cons_err l ds (i + 1) s (some p) _
                        (processLine_kv_dup s p (i + 1) l eqPos hh he hk hv hdup)) n
                  · have hdup' : (mapFind (recAt s p).2 (kvKeyOf l eqPos)).isSome = false :=
                      Bool.eq_false_iff.mpr hdup
                    rw [loadAux_cons_ok l ds (i + 1) s (some p) _ (some p)
                      (processLine_kv_ok s p (i + 1) l eqPos hh he hk hv hdup')]
                    have hho : ¬ offends L i := by
                      rintro ⟨_, _, hcase⟩
                      rcases hcase with hc | hc | hc | hc
                      · rw [hkeyeq] at hc
                        exact hk hc
                      · rw [hvaleq] at hc
                        exact hv hc
                      · exact Option.noConfusion (hiff.mpr hc)
                      · have hsome : (mapFind (currentKeys L i) (kvKeyOf l eqPos)).isSome
                            = true := by
                          apply (mapFind_currentKeys_isSome L i _).mpr
                          obtain ⟨j, h1, h2, h3, h4⟩ := hc
                          exact ⟨j, h1, h2, h3, by rw [← hkeyeq]; exact h4⟩
                        rw [← hpkeys] at hsome
                        exact hdup hsome
                    rw [min_offend_shift L i hho n]
                    refine ih L (i + 1) _ (some p) hdrop1 ?_ ?_ n
                    · constructor
                      · intro hc
                        exact Option.noConfusion hc
                      · intro hc
                        rw [lastHeaderIdx_succ_not L i hhl] at hc
                        exact Option.noConfusion (hiff.mpr hc)
                    · intro q hq
                      injection hq with hq'
                      subst hq'
                      constructor
                      · rw [List.length_set]
                        exact hplen
                      · rw [recAt_set s _ p hplen]
                        show (recAt s p).2 ++ _ = _
                        rw [hpkeys, currentKeys_succ_kv L i hhl hkvt, hkeyeq, hvaleq]

/-- C4: `load` fails exactly on inputs containing an offending key/value line
(empty trimmed key or value, no preceding section header, or a key repeated
within the current section block), aborting at the FIRST such line and
reporting its 1-based physical number; on inputs with no offending line no
failure is raised.  In particular `["[A]", "k=1", "k=2"]` fails with the
duplicate-key error at line 3. -/
theorem c4_loader_failures :
    (∀ (L : List String) (n : Nat),
      (∃ k, load L = Except.error ⟨k, n⟩) ↔
        (∃ i, offends L i ∧ n = i + 1 ∧ ∀ j, j < i → ¬ offends L j)) ∧
    load ["[A]", "k=1", "k=2"] = Except.error ⟨LoadErrKind.duplicateKey, 3⟩ := by
  constructor
  · intro L n
    have h := loadAux_offends L L 0 [] none (by simp)
      (by rw [lastHeaderIdx]) (by intro p hp; exact Option.noConfusion hp) n
    rw [load]
    rw [h]
    constructor
    · rintro ⟨j, _, hoff, hn, hmin⟩
      exact ⟨j, hoff, hn, fun j' hj' => hmin j' (Nat.zero_le j') hj'⟩
    · rintro ⟨j, hoff, hn, hmin⟩
      exact ⟨j, Nat.zero_le j, hoff, hn, fun j' _ hj' => hmin j' hj'⟩
  · decide
